import Mathlib

/-!
Verification of the BucketViewer S3 client core against its specification.

The TypeScript source is shallowly embedded here.  JavaScript strings are
modelled as `List Char`; the JS string operations used by the source
(`split`, `startsWith`, `endsWith`, `substring`, `toLowerCase`) are modelled
by executable functions on `List Char` with the same semantics on the
relevant inputs.  Stateful React components are modelled by pure functions
of their inputs (props, fetched listing data), which is faithful because the
embedded code paths are themselves pure computations over those values.

The file is organised as: all definitions first, then all theorems.
-/

/-! # Definitions -/

/-! ## JavaScript string primitives over `List Char` -/

/-- Model of JS `s.split(sep)` for a one-character separator: the list of
(possibly empty) chunks between separator occurrences.  Like JS `split`, the
result is never the empty list (`"".split(sep)` is `[""]`). -/
def jsSplit (sep : Char) : List Char → List (List Char)
  | [] => [[]]
  | c :: rest =>
    let r := jsSplit sep rest
    if c = sep then [] :: r
    else (c :: r.headD []) :: r.tail

/-- Last element of a list of chunks with a default; models JS `.pop()` on a
non-empty array produced by `split`. -/
def lastD (d : List Char) : List (List Char) → List Char
  | [] => d
  | [x] => x
  | _ :: x :: rest => lastD d (x :: rest)

/-! ## FileTypeClassifier — `S3Service.getContentType` (s3Service.ts 360-381)

The source extracts `filename.split('.').pop()?.toLowerCase()` and looks it
up in a fixed extension-to-MIME table, defaulting to
`application/octet-stream`. -/

/-- `filename.split('.').pop()?.toLowerCase()` from `getContentType`. -/
def extOf (filename : List Char) : List Char :=
  (lastD [] (jsSplit '.' filename)).map Char.toLower

/-- The `mimeTypes` table of `S3Service.getContentType`, verbatim. -/
def mimeTypes : List (List Char × List Char) :=
  [ ("jpg".data, "image/jpeg".data),
    ("jpeg".data, "image/jpeg".data),
    ("png".data, "image/png".data),
    ("gif".data, "image/gif".data),
    ("pdf".data, "application/pdf".data),
    ("txt".data, "text/plain".data),
    ("html".data, "text/html".data),
    ("css".data, "text/css".data),
    ("js".data, "application/javascript".data),
    ("json".data, "application/json".data),
    ("xml".data, "application/xml".data),
    ("zip".data, "application/zip".data),
    ("mp4".data, "video/mp4".data),
    ("mp3".data, "audio/mpeg".data) ]

/-- `S3Service.getContentType`: table lookup on the lowercased final
`.`-delimited segment, with `application/octet-stream` as the default
(`mimeTypes[extension || ''] || 'application/octet-stream'`). -/
def getContentType (filename : List Char) : List Char :=
  (mimeTypes.lookup (extOf filename)).getD "application/octet-stream".data

/-- The results of a sequence of classification calls, in call order.
`getContentType` is a static method reading no mutable state, so a call
sequence is its argument list mapped through the function. -/
def classifyTrace (calls : List (List Char)) : List (List Char) :=
  calls.map getContentType

/-! ## Path handling

`FileExplorer.loadObjects` (part_004, 389-397) turns the UI path into an S3
prefix; `S3Service.listObjects` (s3Service.ts, 67-81) normalizes the prefix
again before issuing the request. -/

/-- Prefix computation of `loadObjects`: `"/"` maps to `""`; otherwise the
leading slash is removed (`substring(1)`) and a trailing slash is appended
when missing. -/
def uiPathToPfx (currentPath : List Char) : List Char :=
  if currentPath = "/".data then []
  else
    let p := currentPath.drop 1
    if p.getLast? = some '/' then p else p ++ ['/']

/-- Prefix normalization of `S3Service.listObjects`: on a truthy (non-empty)
prefix, strip one leading slash if present, then append a trailing slash when
the remainder is non-empty and lacks one. -/
def normalizeListPfx : Option (List Char) → Option (List Char)
  | none => none
  | some s =>
    if s.isEmpty then some s
    else
      let s1 := if s.head? = some '/' then s.drop 1 else s
      if ¬ s1.isEmpty ∧ s1.getLast? ≠ some '/' then some (s1 ++ ['/'])
      else some s1

/-- JS `x || null` applied to an optional string (used for the
`prefix: normalizedPrefix || null` invoke argument). -/
def orNull : Option (List Char) → Option (List Char)
  | none => none
  | some s => if s.isEmpty then none else some s

/-- Well-formed path segment: non-empty and slash-free (spec §3,
VirtualPath invariant). -/
def WFSeg (s : List Char) : Prop := s ≠ [] ∧ '/' ∉ s

/-- The storage prefix denoted by a segment sequence: each segment followed
by `/` (so `[a, b]` gives `a/b/`, and `[]` gives `""`). -/
def joinSegs (segs : List (List Char)) : List Char :=
  (segs.map (fun s => s ++ ['/'])).flatten

/-- The UI path string for a segment sequence, in the format the
`FileExplorer` navigation produces: `"/"` for root, otherwise
`"/" + seg + "/" + ...` with a trailing slash (`handleFileClick`). -/
def pathOfSegs (segs : List (List Char)) : List Char :=
  '/' :: joinSegs segs

/-- Modelled from the spec: `fromPrefix` of PathNormalizer (§4.1/§8) is not a
function in the source — virtual paths are built incrementally by navigation
— so the spec's inverse direction is modelled here: the virtual path of a
storage prefix is the prefix preceded by the root slash (matching the path
format `handleFileClick` builds). -/
def virtualOfPfx (p : List Char) : List Char := '/' :: p

/-- Well-formed storage prefix: the prefix of some well-formed segment
sequence. -/
def WFPfx (p : List Char) : Prop :=
  ∃ segs, (∀ s ∈ segs, WFSeg s) ∧ p = joinSegs segs

/-! ## Breadcrumbs (`FileExplorer`, part_004 544-560) -/

/-- `currentPath.split("/").filter(Boolean)`. -/
def pathParts (currentPath : List Char) : List (List Char) :=
  (jsSplit '/' currentPath).filter (fun s => ! s.isEmpty)

/-- One breadcrumb entry. -/
structure Crumb where
  name : List Char
  path : List Char
deriving DecidableEq

/-- The `pathParts.forEach` accumulation: each part extends the running
path by `part + "/"` and contributes one entry carrying that path. -/
def crumbsFrom (cur : List Char) : List (List Char) → List Crumb
  | [] => []
  | part :: rest =>
    let cur2 := cur ++ part ++ ['/']
    ⟨part, cur2⟩ :: crumbsFrom cur2 rest

/-- The breadcrumb list: a root entry (labelled `bucketName || "Root"`,
path `"/"`) followed by the accumulated per-segment entries. -/
def breadcrumbsOf (rootLabel : List Char) (currentPath : List Char) : List Crumb :=
  ⟨rootLabel, "/".data⟩ :: crumbsFrom "/".data (pathParts currentPath)

/-! ## Folder extraction (`convertToFileItems`, part_004 455-483) -/

/-- `currentPath === "/" ? "" : currentPath.substring(1)`. -/
def currentPfxOf (currentPath : List Char) : List Char :=
  if currentPath = "/".data then [] else currentPath.drop 1

/-- Folder name extracted from one common prefix: when the current prefix is
truthy and the common prefix starts with it, the prefix is stripped;
otherwise the common prefix is used unchanged; the result is
`relativePath.split('/')[0]`. -/
def folderRelOf (currentPath fp : List Char) : List Char :=
  if ¬ (currentPfxOf currentPath).isEmpty ∧ (currentPfxOf currentPath).isPrefixOf fp
  then fp.drop (currentPfxOf currentPath).length
  else fp

def folderNameOf (currentPath fp : List Char) : List Char :=
  (jsSplit '/' (folderRelOf currentPath fp)).headD []

/-- The folder names pushed by the `folders.forEach` loop, in order: one per
common prefix whose extracted name is truthy (non-empty); no deduplication
is performed. -/
def folderNames (currentPath : List Char) (folders : List (List Char)) :
    List (List Char) :=
  (folders.map (folderNameOf currentPath)).filter (fun n => ! n.isEmpty)

/-! ## FileItem and the sort comparator (`FileExplorer`, part_004 340-347,
862-903)

`FileItem` carries the fields the comparator and the Type column read.
`size`/`lastModified` are the already-formatted display strings (present iff
the S3 object carried the field), `contentType` is the raw S3 content type. -/

inductive FType where
  | folder
  | file
deriving DecidableEq

structure FileItem where
  name : List Char
  ftype : FType
  size : Option (List Char)
  lastModified : Option (List Char)
  contentType : Option (List Char)
deriving DecidableEq

/-- The four values of the `sortBy` state (`"type"` is spelt `ftype` because
`type` is reserved). -/
inductive SortField where
  | name
  | modified
  | size
  | ftype
deriving DecidableEq

inductive SortDir where
  | asc
  | desc
deriving DecidableEq

/-- Sign of `a.localeCompare(b)`, modelled as lexicographic comparison by
code point (the default-locale collation on the plain ASCII strings the
comparator sees). -/
def cmpChars : List Char → List Char → Int
  | [], [] => 0
  | [], _ :: _ => -1
  | _ :: _, [] => 1
  | a :: as, b :: bs => if a < b then -1 else if b < a then 1 else cmpChars as bs

/-- JS falsiness of an optional string field (`undefined` or `""`). -/
def strFalsy : Option (List Char) → Bool
  | none => true
  | some s => s.isEmpty

/-- `sortDirection === "asc" ? x.localeCompare(y) : y.localeCompare(x)`. -/
def cmpDir (d : SortDir) (x y : List Char) : Int :=
  if d = SortDir.asc then cmpChars x y else cmpChars y x

/-- The `sortedFiles` comparator: folders always compare before files; within
a group the selected field is compared, returning `0` whenever either side's
field is falsy (for `modified`, `size` and `type`). -/
def fileCmp (f : SortField) (d : SortDir) (a b : FileItem) : Int :=
  if a.ftype ≠ b.ftype then (if a.ftype = FType.folder then -1 else 1)
  else
    match f with
    | SortField.name => cmpDir d a.name b.name
    | SortField.modified =>
      if strFalsy a.lastModified ∨ strFalsy b.lastModified then 0
      else cmpDir d (a.lastModified.getD []) (b.lastModified.getD [])
    | SortField.size =>
      if strFalsy a.size ∨ strFalsy b.size then 0
      else cmpDir d (a.size.getD []) (b.size.getD [])
    | SortField.ftype =>
      if strFalsy a.contentType ∨ strFalsy b.contentType then 0
      else cmpDir d (a.contentType.getD []) (b.contentType.getD [])

/-- One merge pass of a stable merge sort: the left element is taken when the
comparator orders it no later than the right one (`cmp(l, r) ≤ 0`), which is
the stability discipline of `Array.prototype.sort`.  The fuel argument only
bounds recursion depth; with fuel `xs.length + ys.length` (as `merge` always
supplies) it is never exhausted — see `mergeFuel_perm`. -/
def mergeFuel {α : Type} (le : α → α → Bool) : Nat → List α → List α → List α
  | 0, _, _ => []
  | _ + 1, [], ys => ys
  | _ + 1, x :: xs, [] => x :: xs
  | n + 1, x :: xs, y :: ys =>
    if le x y then x :: mergeFuel le n xs (y :: ys)
    else y :: mergeFuel le n (x :: xs) ys

def merge {α : Type} (le : α → α → Bool) (xs ys : List α) : List α :=
  mergeFuel le (xs.length + ys.length) xs ys

/-- Top-down stable merge sort (split into contiguous halves, recursively
sort, merge); fuel `l.length` suffices — see `sortFuel_perm`. -/
def sortFuel {α : Type} (le : α → α → Bool) : Nat → List α → List α
  | 0, _ => []
  | _ + 1, [] => []
  | _ + 1, [a] => [a]
  | n + 1, a :: b :: rest =>
    merge le
      (sortFuel le n ((a :: b :: rest).take ((a :: b :: rest).length / 2)))
      (sortFuel le n ((a :: b :: rest).drop ((a :: b :: rest).length / 2)))

/-- Model of `[...array].sort(cmp)`: the ECMAScript sort is a stable
comparison sort; it is embedded as a stable merge sort driven by the given
comparator. -/
def sortList {α : Type} (le : α → α → Bool) (l : List α) : List α :=
  sortFuel le l.length l

/-- The boolean ordering `comparator(a, b) ≤ 0` driving the sort. -/
def fileLe (f : SortField) (d : SortDir) (a b : FileItem) : Bool :=
  fileCmp f d a b ≤ 0

/-- `const sortedFiles = [...fileItems].sort(comparator)`. -/
def sortedFiles (f : SortField) (d : SortDir) (items : List FileItem) :
    List FileItem :=
  sortList (fileLe f d) items

def isFolderItem (x : FileItem) : Bool :=
  match x.ftype with
  | FType.folder => true
  | FType.file => false

/-- Every element of the `p`-block precedes every element outside it: no
pair (in list order) has `p` false on the left and true on the right. -/
def blockFirst {α : Type} (p : α → Bool) (l : List α) : Prop :=
  List.Pairwise (fun a b => p b = true → p a = true) l

/-- Every folder node precedes every file node. -/
def folderFirst (l : List FileItem) : Prop :=
  blockFirst isFolderItem l

/-- A file item with no `lastModified` (concrete test datum). -/
def itemNoDate : FileItem :=
  ⟨"a.txt".data, FType.file, some "1 KB".data, none, none⟩

/-- A file item with a `lastModified` value (concrete test datum). -/
def itemWithDate : FileItem :=
  ⟨"b.txt".data, FType.file, some "2 KB".data, some "2024-01-01".data, none⟩

/-- The Type column rendering (part_004, 1022-1024):
`file.contentType || (file.type === "folder" ? "Folder" : "Unknown")`. -/
def displayedType (f : FileItem) : List Char :=
  match f.contentType with
  | some c =>
    if c.isEmpty then
      (if f.ftype = FType.folder then "Folder".data else "Unknown".data)
    else c
  | none => if f.ftype = FType.folder then "Folder".data else "Unknown".data

/-! ## Listing and pagination (`S3Service.listObjects` s3Service.ts 58-98,
`loadObjects` part_004 378-445)

The Tauri backend command `list_s3_objects` is the injected lister: a
function from the request's (prefix, continuationToken) pair — the only
request fields the embedded code varies — to a response page. -/

/-- One object of a listing response (`ObjectInfo`). -/
structure ObjInfo where
  key : List Char
  size : Option Nat
  lastModified : Option (List Char)
  contentType : Option (List Char)
  isFolder : Bool
deriving DecidableEq

/-- A listing response page (`ListObjectsResponse`). -/
structure ListResp where
  objects : List ObjInfo
  commonPrefixes : List (List Char)
  isTruncated : Bool
  nextToken : Option (List Char)
deriving DecidableEq

/-- `S3Service.listObjects`: normalize the prefix, then invoke the backend
with `prefix || null` and `continuationToken || null`. -/
def listObjectsModel (L : Option (List Char) → Option (List Char) → ListResp)
    (pfx? : Option (List Char)) (token : Option (List Char)) : ListResp :=
  L (orNull (normalizeListPfx pfx?)) (orNull token)

/-- `loadObjects` of `FileExplorer`: one `listObjects` call for the current
path (delimiter `"/"`, maxKeys 1000, no continuation token); the component
state is set to that single response's objects and common prefixes. -/
def loadObjectsModel (L : Option (List Char) → Option (List Char) → ListResp)
    (currentPath : List Char) : List ObjInfo × List (List Char) :=
  ((listObjectsModel L (some (uiPathToPfx currentPath)) none).objects,
   (listObjectsModel L (some (uiPathToPfx currentPath)) none).commonPrefixes)

/-- Modelled from the spec: the `PaginationCursor` loop of §4.2 (not present
in the source) — repeat the list call with the returned continuation token
while `isTruncated`, accumulating entries and deduplicated common prefixes.
Used as the refinement comparison point for the pagination claim.  The fuel
bounds the page count (spec §4.2 step 4). -/
def specPaginatedMerge (L : Option (List Char) → Option (List Char) → ListResp)
    (pfx? : Option (List Char)) :
    Nat → Option (List Char) → List ObjInfo × List (List Char)
  | 0, _ => ([], [])
  | n + 1, token =>
    let page := L pfx? token
    if page.isTruncated then
      let rest := specPaginatedMerge L pfx? n page.nextToken
      (page.objects ++ rest.1, (page.commonPrefixes ++ rest.2).dedup)
    else (page.objects, page.commonPrefixes)

def objA : ObjInfo := ⟨"a.txt".data, some 1, none, none, false⟩

def objB : ObjInfo := ⟨"b.txt".data, some 2, none, none, false⟩

def objC : ObjInfo := ⟨"c.txt".data, some 3, none, none, false⟩

/-- A lister whose first page is truncated (2 entries, continuation token)
and whose second page holds 1 further entry. -/
def twoPageLister : Option (List Char) → Option (List Char) → ListResp :=
  fun _ token =>
    match token with
    | none => ⟨[objA, objB], [], true, some "tok".data⟩
    | some _ => ⟨[objC], [], false, none⟩

/-- A lister agreeing with `twoPageLister` on the first page but returning an
empty second page. -/
def twoPageListerAlt : Option (List Char) → Option (List Char) → ListResp :=
  fun _ token =>
    match token with
    | none => ⟨[objA, objB], [], true, some "tok".data⟩
    | some _ => ⟨[], [], false, none⟩

/-! ## Settings conversion (`settingsService`, part_003 19-111;
`types/settings.ts`)

The frontend (camelCase) and Rust-backend (snake_case) settings records and
the `convertFromRust` / `convertToRust` field-renaming converters.  JS
numbers appear only as opaque values here and are modelled as `Int`. -/

structure GeneralSettings where
  autoRefresh : Bool
  refreshInterval : Int
  defaultDownloadLocation : String
  confirmBeforeDelete : Bool
  showFilePreview : Bool
deriving DecidableEq

structure ConnectionConfig where
  name : String
  serviceType : String
  endpoint : String
  accessKey : String
  secretKey : String
  region : String
  isDefault : Bool
deriving DecidableEq

structure AppearanceSettings where
  theme : String
  fontSize : Int
  showHiddenFiles : Bool
  showFileExtensions : Bool
deriving DecidableEq

structure LayoutSettings where
  defaultView : String
  sortBy : String
  sortDirection : String
deriving DecidableEq

structure PermissionsSettings where
  allowAnonymousUsageStats : Bool
  enableCaching : Bool
deriving DecidableEq

structure AppSettings where
  version : String
  general : GeneralSettings
  connections : List ConnectionConfig
  appearance : AppearanceSettings
  layout : LayoutSettings
  permissions : PermissionsSettings
deriving DecidableEq

structure RustGeneralSettings where
  auto_refresh : Bool
  refresh_interval : Int
  default_download_location : String
  confirm_before_delete : Bool
  show_file_preview : Bool
deriving DecidableEq

structure RustConnectionConfig where
  name : String
  service_type : String
  endpoint : String
  access_key : String
  secret_key : String
  region : String
  is_default : Bool
deriving DecidableEq

structure RustAppearanceSettings where
  theme : String
  font_size : Int
  show_hidden_files : Bool
  show_file_extensions : Bool
deriving DecidableEq

structure RustLayoutSettings where
  default_view : String
  sort_by : String
  sort_direction : String
deriving DecidableEq

structure RustPermissionsSettings where
  allow_anonymous_usage_stats : Bool
  enable_caching : Bool
deriving DecidableEq

structure RustAppSettings where
  version : String
  general : RustGeneralSettings
  connections : List RustConnectionConfig
  appearance : RustAppearanceSettings
  layout : RustLayoutSettings
  permissions : RustPermissionsSettings
deriving DecidableEq

/-- `convertFromRust.general`. -/
def fromRustGeneral (r : RustGeneralSettings) : GeneralSettings :=
  { autoRefresh := r.auto_refresh,
    refreshInterval := r.refresh_interval,
    defaultDownloadLocation := r.default_download_location,
    confirmBeforeDelete := r.confirm_before_delete,
    showFilePreview := r.show_file_preview }

/-- `convertFromRust.connection`. -/
def fromRustConnection (r : RustConnectionConfig) : ConnectionConfig :=
  { name := r.name,
    serviceType := r.service_type,
    endpoint := r.endpoint,
    accessKey := r.access_key,
    secretKey := r.secret_key,
    region := r.region,
    isDefault := r.is_default }

/-- `convertFromRust.appearance`. -/
def fromRustAppearance (r : RustAppearanceSettings) : AppearanceSettings :=
  { theme := r.theme,
    fontSize := r.font_size,
    showHiddenFiles := r.show_hidden_files,
    showFileExtensions := r.show_file_extensions }

/-- `convertFromRust.layout`. -/
def fromRustLayout (r : RustLayoutSettings) : LayoutSettings :=
  { defaultView := r.default_view,
    sortBy := r.sort_by,
    sortDirection := r.sort_direction }

/-- `convertFromRust.permissions`. -/
def fromRustPermissions (r : RustPermissionsSettings) : PermissionsSettings :=
  { allowAnonymousUsageStats := r.allow_anonymous_usage_stats,
    enableCaching := r.enable_caching }

/-- `convertFromRust.settings`. -/
def fromRustSettings (r : RustAppSettings) : AppSettings :=
  { version := r.version,
    general := fromRustGeneral r.general,
    connections := r.connections.map fromRustConnection,
    appearance := fromRustAppearance r.appearance,
    layout := fromRustLayout r.layout,
    permissions := fromRustPermissions r.permissions }

/-- `convertToRust.general`. -/
def toRustGeneral (f : GeneralSettings) : RustGeneralSettings :=
  { auto_refresh := f.autoRefresh,
    refresh_interval := f.refreshInterval,
    default_download_location := f.defaultDownloadLocation,
    confirm_before_delete := f.confirmBeforeDelete,
    show_file_preview := f.showFilePreview }

/-- `convertToRust.connection`. -/
def toRustConnection (f : ConnectionConfig) : RustConnectionConfig :=
  { name := f.name,
    service_type := f.serviceType,
    endpoint := f.endpoint,
    access_key := f.accessKey,
    secret_key := f.secretKey,
    region := f.region,
    is_default := f.isDefault }

/-- `convertToRust.appearance`. -/
def toRustAppearance (f : AppearanceSettings) : RustAppearanceSettings :=
  { theme := f.theme,
    font_size := f.fontSize,
    show_hidden_files := f.showHiddenFiles,
    show_file_extensions := f.showFileExtensions }

/-- `convertToRust.layout`. -/
def toRustLayout (f : LayoutSettings) : RustLayoutSettings :=
  { default_view := f.defaultView,
    sort_by := f.sortBy,
    sort_direction := f.sortDirection }

/-- `convertToRust.permissions`. -/
def toRustPermissions (f : PermissionsSettings) : RustPermissionsSettings :=
  { allow_anonymous_usage_stats := f.allowAnonymousUsageStats,
    enable_caching := f.enableCaching }

/-- `convertToRust.settings`. -/
def toRustSettings (f : AppSettings) : RustAppSettings :=
  { version := f.version,
    general := toRustGeneral f.general,
    connections := f.connections.map toRustConnection,
    appearance := toRustAppearance f.appearance,
    layout := toRustLayout f.layout,
    permissions := toRustPermissions f.permissions }

/-! # Theorems -/

/-! ## Lemmas about the string primitives -/

theorem jsSplit_ne_nil (sep : Char) (l : List Char) : jsSplit sep l ≠ [] := by
  cases l with
  | nil => simp [jsSplit]
  | cons c rest =>
    simp only [jsSplit]
    split <;> simp

theorem jsSplit_sep_cons (sep : Char) (l : List Char) :
    jsSplit sep (sep :: l) = [] :: jsSplit sep l := by
  simp [jsSplit]

theorem jsSplit_cons_of_ne (sep c : Char) (l : List Char) (h : c ≠ sep) :
    jsSplit sep (c :: l) =
      (c :: (jsSplit sep l).headD []) :: (jsSplit sep l).tail := by
  simp [jsSplit, h]

theorem jsSplit_length (sep : Char) (l : List Char) :
    (jsSplit sep l).length = l.count sep + 1 := by
  induction l with
  | nil => simp [jsSplit]
  | cons c rest ih =>
    by_cases h : c = sep
    · subst h
      simp [jsSplit_sep_cons, ih, List.count_cons]
    · rw [jsSplit_cons_of_ne sep c rest h]
      have hne := jsSplit_ne_nil sep rest
      cases hr : jsSplit sep rest with
      | nil => exact absurd hr hne
      | cons a as =>
        simp [hr] at ih
        simp [List.count_cons, h, ih]

theorem jsSplit_of_not_mem (sep : Char) (l : List Char) (h : sep ∉ l) :
    jsSplit sep l = [l] := by
  induction l with
  | nil => simp [jsSplit]
  | cons c rest ih =>
    have hc : c ≠ sep := fun hcs => h (hcs ▸ List.mem_cons_self c rest)
    have hrest : sep ∉ rest := fun hm => h (List.mem_cons_of_mem c hm)
    rw [jsSplit_cons_of_ne sep c rest hc, ih hrest]
    rfl

/-- Splitting a string of the form `s ++ sep :: t` with `sep ∉ s` yields `s`
as the first chunk followed by the chunks of `t`. -/
theorem jsSplit_append_chunk (sep : Char) (s t : List Char) (h : sep ∉ s) :
    jsSplit sep (s ++ sep :: t) = s :: jsSplit sep t := by
  induction s with
  | nil => simpa using jsSplit_sep_cons sep t
  | cons c s ih =>
    have hc : c ≠ sep := fun hcs => h (hcs ▸ List.mem_cons_self c s)
    have hs : sep ∉ s := fun hm => h (List.mem_cons_of_mem c hm)
    rw [List.cons_append, jsSplit_cons_of_ne sep c (s ++ sep :: t) hc, ih hs]
    rfl

theorem lastD_cons_of_ne_nil (d : List Char) (x : List Char)
    (l : List (List Char)) (h : l ≠ []) : lastD d (x :: l) = lastD d l := by
  cases l with
  | nil => exact absurd rfl h
  | cons y rest => rfl

/-- The last chunk of a split is unaffected by anything before the last
separator occurrence. -/
theorem lastD_jsSplit_append (sep : Char) (s t : List Char) :
    lastD [] (jsSplit sep (s ++ sep :: t)) = lastD [] (jsSplit sep t) := by
  induction s with
  | nil =>
    simp only [List.nil_append, jsSplit_sep_cons]
    exact lastD_cons_of_ne_nil [] [] _ (jsSplit_ne_nil sep t)
  | cons c s ih =>
    by_cases hc : c = sep
    · subst hc
      rw [List.cons_append, jsSplit_sep_cons]
      rw [lastD_cons_of_ne_nil [] [] _ (jsSplit_ne_nil c (s ++ c :: t))]
      exact ih
    · rw [List.cons_append, jsSplit_cons_of_ne sep c (s ++ sep :: t) hc]
      have hlen : (jsSplit sep (s ++ sep :: t)).length ≥ 2 := by
        rw [jsSplit_length]
        have : (s ++ sep :: t).count sep ≥ 1 := by
          rw [List.count_append, List.count_cons]
          simp
          omega
        omega
      cases hr : jsSplit sep (s ++ sep :: t) with
      | nil => exact absurd hr (jsSplit_ne_nil sep _)
      | cons a as =>
        cases as with
        | nil => rw [hr] at hlen; simp at hlen
        | cons b bs =>
          rw [hr] at ih
          simp only [List.headD_cons, List.tail_cons]
          rw [lastD_cons_of_ne_nil [] _ (b :: bs) (by simp)]
          rw [lastD_cons_of_ne_nil [] a (b :: bs) (by simp)] at ih
          exact ih

theorem extOf_append_last (s t : List Char) (h : '.' ∉ t) :
    extOf (s ++ '.' :: t) = t.map Char.toLower := by
  unfold extOf
  rw [lastD_jsSplit_append, jsSplit_of_not_mem '.' t h]
  rfl

theorem classifyTrace_getD (pre post : List (List Char)) (n : List Char) :
    (classifyTrace (pre ++ n :: post)).getD pre.length [] = getContentType n := by
  induction pre with
  | nil => rfl
  | cons p ps ih => simpa [classifyTrace] using ih

/-! ## Lemmas about segment sequences and paths -/

theorem joinSegs_nil : joinSegs [] = [] := rfl

theorem joinSegs_cons (s : List Char) (segs : List (List Char)) :
    joinSegs (s :: segs) = s ++ '/' :: joinSegs segs := by
  simp [joinSegs]

theorem joinSegs_append (l1 l2 : List (List Char)) :
    joinSegs (l1 ++ l2) = joinSegs l1 ++ joinSegs l2 := by
  simp [joinSegs]

theorem joinSegs_ne_nil (segs : List (List Char)) (h : segs ≠ []) :
    joinSegs segs ≠ [] := by
  cases segs with
  | nil => exact absurd rfl h
  | cons s rest => simp [joinSegs_cons]

theorem getLast?_append_right (l r : List Char) (h : r ≠ []) :
    (l ++ r).getLast? = r.getLast? := by
  induction l with
  | nil => rfl
  | cons c l ih =>
    rw [List.cons_append]
    have hne : l ++ r ≠ [] := by
      intro hnil
      exact h (List.append_eq_nil.mp hnil).2
    cases hlr : l ++ r with
    | nil => exact absurd hlr hne
    | cons a as => rw [List.getLast?_cons_cons, ← hlr, ih]

theorem joinSegs_getLast (segs : List (List Char)) (h : segs ≠ []) :
    (joinSegs segs).getLast? = some '/' := by
  induction segs with
  | nil => exact absurd rfl h
  | cons s rest ih =>
    rw [joinSegs_cons]
    by_cases hr : rest = []
    · subst hr
      rw [getLast?_append_right s _ (by simp)]
      rfl
    · rw [getLast?_append_right s _ (by simp)]
      have hne := joinSegs_ne_nil rest hr
      cases hjr : joinSegs rest with
      | nil => exact absurd hjr hne
      | cons a as => rw [List.getLast?_cons_cons, ← hjr, ih hr]

theorem joinSegs_head (segs : List (List Char)) (h : ∀ s ∈ segs, WFSeg s) :
    (joinSegs segs).head? ≠ some '/' := by
  cases segs with
  | nil => simp [joinSegs_nil]
  | cons s rest =>
    have hs := h s (List.mem_cons_self s rest)
    rw [joinSegs_cons]
    cases hc : s with
    | nil => exact absurd hc hs.1
    | cons c cs =>
      have : c ≠ '/' := by
        intro hcsl
        exact hs.2 (hc ▸ hcsl ▸ List.mem_cons_self c cs)
      simp [this]

theorem pathOfSegs_nil : pathOfSegs [] = "/".data := rfl

theorem pathOfSegs_ne_root (segs : List (List Char)) (h : segs ≠ []) :
    pathOfSegs segs ≠ "/".data := by
  unfold pathOfSegs
  intro heq
  have : joinSegs segs = [] := by
    have := List.tail_eq_of_cons_eq heq
    simpa using this
  exact joinSegs_ne_nil segs h this

theorem uiPathToPfx_root : uiPathToPfx "/".data = [] := by
  simp [uiPathToPfx]

theorem uiPathToPfx_pathOfSegs (segs : List (List Char))
    (h : ∀ s ∈ segs, WFSeg s) :
    uiPathToPfx (pathOfSegs segs) = joinSegs segs := by
  by_cases hnil : segs = []
  · subst hnil
    rw [pathOfSegs_nil, uiPathToPfx_root, joinSegs_nil]
  · unfold uiPathToPfx
    rw [if_neg (pathOfSegs_ne_root segs hnil)]
    show (if (List.drop 1 (pathOfSegs segs)).getLast? = some '/' then _ else _) = _
    have hdrop : List.drop 1 (pathOfSegs segs) = joinSegs segs := rfl
    rw [hdrop, if_pos (joinSegs_getLast segs hnil)]

theorem normalizeListPfx_joinSegs (segs : List (List Char))
    (h : ∀ s ∈ segs, WFSeg s) :
    normalizeListPfx (some (joinSegs segs)) = some (joinSegs segs) := by
  by_cases hnil : segs = []
  · subst hnil
    rfl
  · have hne := joinSegs_ne_nil segs hnil
    have hemp : (joinSegs segs).isEmpty = false := by
      simpa [List.isEmpty_iff] using hne
    have hhead : ¬ (joinSegs segs).head? = some '/' := joinSegs_head segs h
    have hlast : (joinSegs segs).getLast? = some '/' := joinSegs_getLast segs hnil
    simp [normalizeListPfx, hemp, hhead, hlast]

theorem uiPathToPfx_virtualOfPfx (p : List Char) (hp : WFPfx p) :
    uiPathToPfx (virtualOfPfx p) = p := by
  obtain ⟨segs, hwf, rfl⟩ := hp
  exact uiPathToPfx_pathOfSegs segs hwf

/-! ## Lemmas about breadcrumbs -/

theorem crumbsFrom_length (cur : List Char) (parts : List (List Char)) :
    (crumbsFrom cur parts).length = parts.length := by
  induction parts generalizing cur with
  | nil => rfl
  | cons part rest ih => simp [crumbsFrom, ih]

theorem pathOfSegs_snoc (pre : List (List Char)) (part : List Char) :
    pathOfSegs pre ++ part ++ ['/'] = pathOfSegs (pre ++ [part]) := by
  unfold pathOfSegs
  rw [joinSegs_append]
  simp [joinSegs]

theorem crumbsFrom_getD (segs : List (List Char)) :
    ∀ (pre : List (List Char)) (i : Nat), i < segs.length →
    (crumbsFrom (pathOfSegs pre) segs).getD i ⟨[], []⟩ =
      ⟨segs.getD i [], pathOfSegs (pre ++ segs.take (i + 1))⟩ := by
  induction segs with
  | nil => intro pre i hi; simp at hi
  | cons part rest ih =>
    intro pre i hi
    cases i with
    | zero =>
      show (⟨part, pathOfSegs pre ++ part ++ ['/']⟩ : Crumb) = _
      rw [pathOfSegs_snoc]
      rfl
    | succ j =>
      have hj : j < rest.length := by simpa using hi
      show (crumbsFrom (pathOfSegs pre ++ part ++ ['/']) rest).getD j ⟨[], []⟩ = _
      rw [pathOfSegs_snoc]
      rw [ih (pre ++ [part]) j hj]
      simp

theorem jsSplit_joinSegs (segs : List (List Char))
    (h : ∀ s ∈ segs, '/' ∉ s) :
    jsSplit '/' (joinSegs segs) = segs ++ [[]] := by
  induction segs with
  | nil => simp [joinSegs_nil, jsSplit]
  | cons s rest ih =>
    rw [joinSegs_cons,
      jsSplit_append_chunk '/' s (joinSegs rest) (h s (List.mem_cons_self s rest)),
      ih (fun x hx => h x (List.mem_cons_of_mem s hx))]
    rfl

theorem pathParts_pathOfSegs (segs : List (List Char))
    (h : ∀ s ∈ segs, WFSeg s) :
    pathParts (pathOfSegs segs) = segs := by
  unfold pathParts pathOfSegs
  rw [jsSplit_sep_cons, jsSplit_joinSegs segs (fun s hs => (h s hs).2)]
  have hsegs : ∀ s ∈ segs, (! s.isEmpty) = true := by
    intro s hs
    have := (h s hs).1
    simp [List.isEmpty_iff, this]
  simp [List.filter_cons, List.filter_append, List.filter_eq_self.2 hsegs]

/-! ## Lemmas about folder extraction -/

theorem currentPfxOf_pathOfSegs (segs : List (List Char))
    (h : segs ≠ [] → joinSegs segs ≠ []) :
    currentPfxOf (pathOfSegs segs) = joinSegs segs := by
  unfold currentPfxOf
  by_cases hnil : segs = []
  · subst hnil
    rw [if_pos pathOfSegs_nil]
    rfl
  · rw [if_neg (pathOfSegs_ne_root segs hnil)]
    rfl

theorem isPrefixOf_append (l r : List Char) : l.isPrefixOf (l ++ r) = true := by
  rw [List.isPrefixOf_iff_prefix]
  exact ⟨r, rfl⟩

theorem jsSplit_headD (name t : List Char) (h : '/' ∉ name) :
    (jsSplit '/' (name ++ '/' :: t)).headD [] = name := by
  rw [jsSplit_append_chunk '/' name t h]
  rfl

/-! ## Claim C3 -/

/-- Claim C3, counterexample: `getContentType` keys its lookup on the bare
final segment `gz` of `archive.tar.gz` (not on the compound suffix
`tar.gz`), the table holds no compound-suffix rule at all, and the result is
the `application/octet-stream` default — identical to any other unknown
`.gz` name.  The compound-extension rule claimed by the spec does not exist
in this code. -/
theorem getContentType_tarGz_counterexample :
    extOf "archive.tar.gz".data = "gz".data ∧
    mimeTypes.lookup "tar.gz".data = none ∧
    mimeTypes.lookup "gz".data = none ∧
    getContentType "archive.tar.gz".data = "application/octet-stream".data ∧
    getContentType "archive.tar.gz".data = getContentType "noise.gz".data := by
  decide

/-- Claim C3, amended: classification considers only the final `.`-delimited
segment of the name (lowercased); everything before the last `.` is ignored,
so `archive.tar.gz` is resolved exactly like any bare `.gz` name, via the
table entry for `gz` (absent, hence the default). -/
theorem getContentType_last_segment_only (s t : List Char) (h : '.' ∉ t) :
    extOf (s ++ '.' :: t) = t.map Char.toLower ∧
    getContentType (s ++ '.' :: t) =
      (mimeTypes.lookup (t.map Char.toLower)).getD "application/octet-stream".data := by
  refine ⟨extOf_append_last s t h, ?_⟩
  unfold getContentType
  rw [extOf_append_last s t h]

/-- Witness for `getContentType_last_segment_only` at
`"archive.tar" ++ "." ++ "gz"`, i.e. `archive.tar.gz`. -/
theorem getContentType_last_segment_only_witness :
    ('.' ∉ "gz".data) ∧
    (extOf ("archive.tar".data ++ '.' :: "gz".data) = "gz".data.map Char.toLower ∧
      getContentType ("archive.tar".data ++ '.' :: "gz".data) =
        (mimeTypes.lookup ("gz".data.map Char.toLower)).getD
          "application/octet-stream".data) :=
  ⟨by decide, getContentType_last_segment_only "archive.tar".data "gz".data (by decide)⟩

/-! ## Claim C8 -/

/-- Claim C8: classification is a pure function of its argument — the result
of a call is `getContentType` of the argument, independent of the position in
the call sequence and of all other calls made before or after. -/
theorem classify_deterministic (pre post pre' post' : List (List Char))
    (n : List Char) :
    (classifyTrace (pre ++ n :: post)).getD pre.length [] =
      (classifyTrace (pre' ++ n :: post')).getD pre'.length [] := by
  rw [classifyTrace_getD, classifyTrace_getD]

/-! ## Claim C4 -/

/-- Claim C4: for every well-formed virtual path, the derived storage prefix
(`loadObjects` computation, left unchanged by the `listObjects`
normalization) has no leading slash, ends with a trailing slash when
non-empty, maps the root path `"/"` to the empty prefix, and converting a
well-formed storage prefix to a virtual path and back yields the original
prefix. -/
theorem storage_pfx_roundtrip (segs : List (List Char))
    (h : ∀ s ∈ segs, WFSeg s) :
    uiPathToPfx (pathOfSegs segs) = joinSegs segs ∧
    normalizeListPfx (some (joinSegs segs)) = some (joinSegs segs) ∧
    (joinSegs segs).head? ≠ some '/' ∧
    (joinSegs segs ≠ [] → (joinSegs segs).getLast? = some '/') ∧
    (pathOfSegs [] = "/".data ∧ uiPathToPfx "/".data = []) ∧
    (∀ p, WFPfx p → uiPathToPfx (virtualOfPfx p) = p) :=
  ⟨uiPathToPfx_pathOfSegs segs h,
   normalizeListPfx_joinSegs segs h,
   joinSegs_head segs h,
   fun hne => joinSegs_getLast segs (fun hnil => hne (hnil ▸ joinSegs_nil)),
   ⟨pathOfSegs_nil, uiPathToPfx_root⟩,
   fun p hp => uiPathToPfx_virtualOfPfx p hp⟩

/-- Witness for `storage_pfx_roundtrip` at the one-segment path
`/folder1/`. -/
theorem storage_pfx_roundtrip_witness :
    (∀ s ∈ ["folder1".data], WFSeg s) ∧
    (uiPathToPfx (pathOfSegs ["folder1".data]) = joinSegs ["folder1".data] ∧
      normalizeListPfx (some (joinSegs ["folder1".data])) =
        some (joinSegs ["folder1".data]) ∧
      (joinSegs ["folder1".data]).head? ≠ some '/' ∧
      (joinSegs ["folder1".data] ≠ [] →
        (joinSegs ["folder1".data]).getLast? = some '/') ∧
      (pathOfSegs [] = "/".data ∧ uiPathToPfx "/".data = []) ∧
      (∀ p, WFPfx p → uiPathToPfx (virtualOfPfx p) = p)) :=
  ⟨by intro s hs; simp at hs; subst hs; exact ⟨by decide, by decide⟩,
   storage_pfx_roundtrip ["folder1".data]
     (by intro s hs; simp at hs; subst hs; exact ⟨by decide, by decide⟩)⟩

/-! ## Claim C9 -/

/-- Claim C9: for a well-formed current path, the breadcrumb list is one root
entry (labelled `rootLabel`, path `"/"`) followed by exactly one entry per
prefix of the segment sequence; the path carried by breadcrumb `i`
re-derives (via the `loadObjects` prefix computation) the storage prefix of
that ancestor, in particular breadcrumb `0` re-derives the empty prefix. -/
theorem breadcrumbs_spec (rootLabel : List Char) (segs : List (List Char))
    (h : ∀ s ∈ segs, WFSeg s) :
    (breadcrumbsOf rootLabel (pathOfSegs segs)).length = segs.length + 1 ∧
    (breadcrumbsOf rootLabel (pathOfSegs segs)).getD 0 ⟨[], []⟩ =
      ⟨rootLabel, "/".data⟩ ∧
    (∀ i, i < segs.length →
      (breadcrumbsOf rootLabel (pathOfSegs segs)).getD (i + 1) ⟨[], []⟩ =
        ⟨segs.getD i [], pathOfSegs (segs.take (i + 1))⟩) ∧
    (∀ i, i ≤ segs.length →
      uiPathToPfx
        (((breadcrumbsOf rootLabel (pathOfSegs segs)).getD i ⟨[], []⟩).path) =
        joinSegs (segs.take i)) := by
  have hparts : pathParts (pathOfSegs segs) = segs := pathParts_pathOfSegs segs h
  have hroot : ("/".data : List Char) = pathOfSegs [] := rfl
  constructor
  · simp [breadcrumbsOf, hparts, crumbsFrom_length]
  constructor
  · rfl
  constructor
  · intro i hi
    show (crumbsFrom "/".data (pathParts (pathOfSegs segs))).getD i ⟨[], []⟩ = _
    rw [hparts, hroot, crumbsFrom_getD segs [] i hi]
    simp
  · intro i hile
    cases i with
    | zero =>
      show uiPathToPfx "/".data = joinSegs (segs.take 0)
      rw [uiPathToPfx_root]
      rfl
    | succ j =>
      have hj : j < segs.length := by omega
      show uiPathToPfx
          (((crumbsFrom "/".data (pathParts (pathOfSegs segs))).getD j ⟨[], []⟩).path) = _
      rw [hparts, hroot, crumbsFrom_getD segs [] j hj]
      show uiPathToPfx (pathOfSegs ([] ++ segs.take (j + 1))) = _
      rw [List.nil_append]
      exact uiPathToPfx_pathOfSegs (segs.take (j + 1))
        (fun s hs => h s (List.take_subset (j + 1) segs hs))

/-- Witness for `breadcrumbs_spec` at path `/folder1/` with root label
`bucket`. -/
theorem breadcrumbs_spec_witness :
    (∀ s ∈ ["folder1".data], WFSeg s) ∧
    ((breadcrumbsOf "bucket".data (pathOfSegs ["folder1".data])).length =
        ["folder1".data].length + 1 ∧
      (breadcrumbsOf "bucket".data (pathOfSegs ["folder1".data])).getD 0 ⟨[], []⟩ =
        ⟨"bucket".data, "/".data⟩ ∧
      (∀ i, i < ["folder1".data].length →
        (breadcrumbsOf "bucket".data (pathOfSegs ["folder1".data])).getD (i + 1)
            ⟨[], []⟩ =
          ⟨["folder1".data].getD i [], pathOfSegs (["folder1".data].take (i + 1))⟩) ∧
      (∀ i, i ≤ ["folder1".data].length →
        uiPathToPfx
          (((breadcrumbsOf "bucket".data (pathOfSegs ["folder1".data])).getD i
              ⟨[], []⟩).path) =
          joinSegs (["folder1".data].take i))) :=
  ⟨by intro s hs; simp at hs; subst hs; exact ⟨by decide, by decide⟩,
   breadcrumbs_spec "bucket".data ["folder1".data]
     (by intro s hs; simp at hs; subst hs; exact ⟨by decide, by decide⟩)⟩

/-! ## Claim C5 -/

/-- Claim C5, counterexample: a common prefix that does not start with the
current prefix is not discarded — at path `/a/` the common prefix `b/x/`
still contributes the folder node `b` — and duplicate folder names are not
collapsed: two identical common prefixes contribute two identical nodes. -/
theorem folder_extraction_counterexample :
    folderNames "/a/".data ["b/x/".data] = ["b".data] ∧
    folderNames "/".data ["dup/".data, "dup/".data] = ["dup".data, "dup".data] := by
  decide

/-- Claim C5, amended: a common prefix of the form `currentPrefix + name +
"/" + tail` has the current prefix stripped and contributes `name` (the
first remaining slash-delimited segment); a common prefix that does not
start with the current prefix is kept unchanged and contributes its own
first slash-delimited segment (it is not discarded); and the extraction
distributes over list concatenation, so duplicate names are not
collapsed. -/
theorem folder_extraction_amended (segs : List (List Char))
    (h : ∀ s ∈ segs, WFSeg s) (name tail : List Char) (hn : WFSeg name) :
    folderNameOf (pathOfSegs segs) (joinSegs segs ++ name ++ '/' :: tail) = name ∧
    (∀ fname t, WFSeg fname →
      (joinSegs segs).isPrefixOf (fname ++ '/' :: t) = false →
      folderNameOf (pathOfSegs segs) (fname ++ '/' :: t) = fname) ∧
    (∀ l1 l2, folderNames (pathOfSegs segs) (l1 ++ l2) =
      folderNames (pathOfSegs segs) l1 ++ folderNames (pathOfSegs segs) l2) := by
  have hcp : currentPfxOf (pathOfSegs segs) = joinSegs segs :=
    currentPfxOf_pathOfSegs segs (joinSegs_ne_nil segs)
  refine ⟨?_, ?_, ?_⟩
  · unfold folderNameOf folderRelOf
    rw [hcp]
    by_cases hnil : segs = []
    · subst hnil
      rw [if_neg (by simp [joinSegs_nil])]
      have : ((joinSegs [] ++ name) ++ '/' :: tail) = name ++ '/' :: tail := by
        simp [joinSegs_nil]
      rw [this]
      exact jsSplit_headD name tail hn.2
    · have hne := joinSegs_ne_nil segs hnil
      rw [List.append_assoc]
      rw [if_pos ⟨by simpa [List.isEmpty_iff] using hne,
        isPrefixOf_append (joinSegs segs) (name ++ '/' :: tail)⟩]
      rw [List.drop_left]
      exact jsSplit_headD name tail hn.2
  · intro fname t hf hnp
    unfold folderNameOf folderRelOf
    rw [hcp]
    rw [if_neg (fun hcontra => Bool.false_ne_true (hnp ▸ hcontra.2))]
    exact jsSplit_headD fname t hf.2
  · intro l1 l2
    unfold folderNames
    rw [List.map_append, List.filter_append]

/-- Witness for `folder_extraction_amended` at path `/a/` with retained
prefix `a/b/c/` and non-matching prefix `z/w/`. -/
theorem folder_extraction_amended_witness :
    ((∀ s ∈ ["a".data], WFSeg s) ∧ WFSeg "b".data) ∧
    (folderNameOf (pathOfSegs ["a".data])
        (joinSegs ["a".data] ++ "b".data ++ '/' :: "c/".data) = "b".data ∧
      (∀ fname t, WFSeg fname →
        (joinSegs ["a".data]).isPrefixOf (fname ++ '/' :: t) = false →
        folderNameOf (pathOfSegs ["a".data]) (fname ++ '/' :: t) = fname) ∧
      (∀ l1 l2, folderNames (pathOfSegs ["a".data]) (l1 ++ l2) =
        folderNames (pathOfSegs ["a".data]) l1 ++
          folderNames (pathOfSegs ["a".data]) l2)) :=
  ⟨⟨by intro s hs; simp at hs; subst hs; exact ⟨by decide, by decide⟩,
    ⟨by decide, by decide⟩⟩,
   folder_extraction_amended ["a".data]
     (by intro s hs; simp at hs; subst hs; exact ⟨by decide, by decide⟩)
     "b".data "c/".data ⟨by decide, by decide⟩⟩

/-! ## Lemmas about the stable merge sort -/

theorem isFolderItem_iff (x : FileItem) :
    isFolderItem x = true ↔ x.ftype = FType.folder := by
  cases hx : x.ftype <;> simp [isFolderItem, hx]

theorem fileLe_cross_true (f : SortField) (d : SortDir) (a b : FileItem)
    (ha : isFolderItem a = true) (hb : isFolderItem b = false) :
    fileLe f d a b = true := by
  have hfa : a.ftype = FType.folder := (isFolderItem_iff a).mp ha
  have hfb : b.ftype = FType.file := by
    cases hxb : b.ftype
    · simp [isFolderItem, hxb] at hb
    · rfl
  simp [fileLe, fileCmp, hfa, hfb]

theorem fileLe_cross_false (f : SortField) (d : SortDir) (a b : FileItem)
    (ha : isFolderItem a = false) (hb : isFolderItem b = true) :
    fileLe f d a b = false := by
  have hfb : b.ftype = FType.folder := (isFolderItem_iff b).mp hb
  have hfa : a.ftype = FType.file := by
    cases hxa : a.ftype
    · simp [isFolderItem, hxa] at ha
    · rfl
  simp [fileLe, fileCmp, hfa, hfb]

theorem mem_mergeFuel {α : Type} (le : α → α → Bool) :
    ∀ (n : Nat) (xs ys : List α) (a : α),
      a ∈ mergeFuel le n xs ys → a ∈ xs ∨ a ∈ ys := by
  intro n
  induction n with
  | zero =>
    intro xs ys a ha
    simp [mergeFuel] at ha
  | succ n ih =>
    intro xs ys a ha
    match xs, ys with
    | [], ys =>
      right
      simpa [mergeFuel] using ha
    | x :: xs, [] =>
      left
      simpa [mergeFuel] using ha
    | x :: xs, y :: ys =>
      simp only [mergeFuel] at ha
      split at ha
      · rcases List.mem_cons.mp ha with h | h
        · exact Or.inl (h ▸ List.mem_cons_self x xs)
        · rcases ih xs (y :: ys) a h with h1 | h1
          · exact Or.inl (List.mem_cons_of_mem x h1)
          · exact Or.inr h1
      · rcases List.mem_cons.mp ha with h | h
        · exact Or.inr (h ▸ List.mem_cons_self y ys)
        · rcases ih (x :: xs) ys a h with h1 | h1
          · exact Or.inl h1
          · exact Or.inr (List.mem_cons_of_mem y h1)

theorem blockFirst_mergeFuel {α : Type} (p : α → Bool) (le : α → α → Bool)
    (hTrue : ∀ a b, p a = true → p b = false → le a b = true)
    (hFalse : ∀ a b, p a = false → p b = true → le a b = false) :
    ∀ (n : Nat) (xs ys : List α), blockFirst p xs → blockFirst p ys →
      blockFirst p (mergeFuel le n xs ys) := by
  intro n
  induction n with
  | zero =>
    intro xs ys _ _
    simp [mergeFuel, blockFirst]
  | succ n ih =>
    intro xs ys hxs hys
    match xs, ys with
    | [], ys => simpa [mergeFuel] using hys
    | x :: xs, [] => simpa [mergeFuel] using hxs
    | x :: xs, y :: ys =>
      simp only [mergeFuel]
      rw [blockFirst, List.pairwise_cons] at hxs hys
      by_cases hle : le x y
      · rw [if_pos hle]
        rw [blockFirst, List.pairwise_cons]
        constructor
        · intro b hb hpb
          by_cases hpx : p x = true
          · exact hpx
          · rcases mem_mergeFuel le n xs (y :: ys) b hb with hbx | hby
            · exact hxs.1 b hbx hpb
            · have hpy : p y = true := by
                rcases List.mem_cons.mp hby with h | h
                · exact h ▸ hpb
                · exact hys.1 b h hpb
              have := hFalse x y (Bool.eq_false_iff.mpr hpx) hpy
              rw [this] at hle
              exact absurd hle (by simp)
        · exact ih xs (y :: ys) hxs.2 (by rw [blockFirst, List.pairwise_cons]; exact hys)
      · rw [if_neg hle]
        rw [blockFirst, List.pairwise_cons]
        constructor
        · intro b hb hpb
          by_cases hpy : p y = true
          · exact hpy
          · rcases mem_mergeFuel le n (x :: xs) ys b hb with hbx | hby
            · have hpx : p x = true := by
                rcases List.mem_cons.mp hbx with h | h
                · exact h ▸ hpb
                · exact hxs.1 b h hpb
              have := hTrue x y hpx (Bool.eq_false_iff.mpr hpy)
              exact absurd this hle
            · exact hys.1 b hby hpb
        · exact ih (x :: xs) ys (by rw [blockFirst, List.pairwise_cons]; exact hxs) hys.2

theorem blockFirst_sortFuel {α : Type} (p : α → Bool) (le : α → α → Bool)
    (hTrue : ∀ a b, p a = true → p b = false → le a b = true)
    (hFalse : ∀ a b, p a = false → p b = true → le a b = false) :
    ∀ (n : Nat) (l : List α), blockFirst p (sortFuel le n l) := by
  intro n
  induction n with
  | zero =>
    intro l
    simp [sortFuel, blockFirst]
  | succ n ih =>
    intro l
    match l with
    | [] => simp [sortFuel, blockFirst]
    | [a] => simp [sortFuel, blockFirst]
    | a :: b :: rest =>
      simp only [sortFuel, merge]
      exact blockFirst_mergeFuel p le hTrue hFalse _ _ _ (ih _) (ih _)

theorem mergeFuel_perm {α : Type} (le : α → α → Bool) :
    ∀ (n : Nat) (xs ys : List α), xs.length + ys.length ≤ n →
      List.Perm (mergeFuel le n xs ys) (xs ++ ys) := by
  intro n
  induction n with
  | zero =>
    intro xs ys h
    cases xs <;> cases ys <;> simp_all [mergeFuel]
  | succ n ih =>
    intro xs ys h
    match xs, ys with
    | [], ys => simp [mergeFuel]
    | x :: xs, [] => simp [mergeFuel]
    | x :: xs, y :: ys =>
      simp only [mergeFuel]
      by_cases hle : le x y
      · rw [if_pos hle]
        have hp := ih xs (y :: ys) (by simp at h ⊢; omega)
        exact List.Perm.cons x hp
      · rw [if_neg hle]
        have hp := ih (x :: xs) ys (by simp at h ⊢; omega)
        have h3 : List.Perm (y :: mergeFuel le n (x :: xs) ys) (y :: ((x :: xs) ++ ys)) :=
          List.Perm.cons y hp
        exact h3.trans List.perm_middle.symm

theorem sortFuel_perm {α : Type} (le : α → α → Bool) :
    ∀ (n : Nat) (l : List α), l.length ≤ n → List.Perm (sortFuel le n l) l := by
  intro n
  induction n with
  | zero =>
    intro l h
    have : l = [] := List.length_eq_zero.mp (Nat.le_zero.mp h)
    subst this
    simp [sortFuel]
  | succ n ih =>
    intro l h
    match l with
    | [] => simp [sortFuel]
    | [a] => simp [sortFuel]
    | a :: b :: rest =>
      simp only [sortFuel, merge]
      have hm : (a :: b :: rest).length = rest.length + 2 := by simp
      have htk : ((a :: b :: rest).take ((a :: b :: rest).length / 2)).length ≤ n := by
        simp only [List.length_take, hm]
        simp at h
        omega
      have hdr : ((a :: b :: rest).drop ((a :: b :: rest).length / 2)).length ≤ n := by
        simp only [List.length_drop, hm]
        simp at h
        omega
      have p1 := ih _ htk
      have p2 := ih _ hdr
      have hpm := mergeFuel_perm le
        ((sortFuel le n ((a :: b :: rest).take ((a :: b :: rest).length / 2))).length +
          (sortFuel le n ((a :: b :: rest).drop ((a :: b :: rest).length / 2))).length)
        (sortFuel le n ((a :: b :: rest).take ((a :: b :: rest).length / 2)))
        (sortFuel le n ((a :: b :: rest).drop ((a :: b :: rest).length / 2)))
        (le_refl _)
      have happ := List.Perm.append p1 p2
      have hfin := hpm.trans happ
      rwa [List.take_append_drop] at hfin

/-- The embedded sort is a permutation of its input (sanity of the model:
the fuel never runs out at the fuel values `sortList` supplies). -/
theorem sortList_perm {α : Type} (le : α → α → Bool) (l : List α) :
    List.Perm (sortList le l) l :=
  sortFuel_perm le l.length l (le_refl _)

/-! ## Claim C1 -/

/-- Claim C1: for every set of file/folder nodes and every sort field and
direction, the sorted output places every folder node before every file
node. -/
theorem sort_folder_first (f : SortField) (d : SortDir)
    (items : List FileItem) : folderFirst (sortedFiles f d items) :=
  blockFirst_sortFuel isFolderItem (fileLe f d)
    (fun a b ha hb => fileLe_cross_true f d a b ha hb)
    (fun a b ha hb => fileLe_cross_false f d a b ha hb)
    items.length items

/-! ## Claim C6 -/

/-- Claim C6, counterexample: sorting by `modified` (ascending or
descending) a pair whose first item lacks `lastModified` and whose second
has it leaves the missing-field item first — the comparator returns `0` for
such pairs, so the missing-field node is not placed after the node that has
the field. -/
theorem sort_missing_field_counterexample :
    strFalsy itemNoDate.lastModified = true ∧
    strFalsy itemWithDate.lastModified = false ∧
    sortedFiles SortField.modified SortDir.asc [itemNoDate, itemWithDate] =
      [itemNoDate, itemWithDate] ∧
    sortedFiles SortField.modified SortDir.desc [itemNoDate, itemWithDate] =
      [itemNoDate, itemWithDate] := by
  decide

/-- Claim C6, amended: when sorting by `modified` or `size` and either node
of a same-group pair lacks the field, the comparator returns `0` (for both
directions), so the stable sort leaves such a pair in input order — the
node missing the field is not moved after the node that has it. -/
theorem sort_missing_field_amended (d : SortDir) (a b : FileItem)
    (hab : a.ftype = b.ftype) :
    (strFalsy a.lastModified = true ∨ strFalsy b.lastModified = true →
      fileCmp SortField.modified d a b = 0) ∧
    (strFalsy a.size = true ∨ strFalsy b.size = true →
      fileCmp SortField.size d a b = 0) ∧
    (strFalsy a.lastModified = true ∨ strFalsy b.lastModified = true →
      sortedFiles SortField.modified d [a, b] = [a, b]) := by
  have hne : ¬ a.ftype ≠ b.ftype := by simp [hab]
  refine ⟨?_, ?_, ?_⟩
  · intro hor
    simp [fileCmp, hne, hor]
  · intro hor
    simp [fileCmp, hne, hor]
  · intro hor
    have hcmp : fileCmp SortField.modified d a b = 0 := by
      simp [fileCmp, hne, hor]
    have hle : fileLe SortField.modified d a b = true := by
      simp [fileLe, hcmp]
    simp [sortedFiles, sortList, sortFuel, merge, mergeFuel, hle]

/-- Witness for `sort_missing_field_amended` at the concrete pair
(`itemNoDate`, `itemWithDate`). -/
theorem sort_missing_field_amended_witness :
    itemNoDate.ftype = itemWithDate.ftype ∧
    ((strFalsy itemNoDate.lastModified = true ∨
        strFalsy itemWithDate.lastModified = true →
      fileCmp SortField.modified SortDir.asc itemNoDate itemWithDate = 0) ∧
    (strFalsy itemNoDate.size = true ∨ strFalsy itemWithDate.size = true →
      fileCmp SortField.size SortDir.asc itemNoDate itemWithDate = 0) ∧
    (strFalsy itemNoDate.lastModified = true ∨
        strFalsy itemWithDate.lastModified = true →
      sortedFiles SortField.modified SortDir.asc [itemNoDate, itemWithDate] =
        [itemNoDate, itemWithDate])) :=
  ⟨by decide, sort_missing_field_amended SortDir.asc itemNoDate itemWithDate (by decide)⟩

/-! ## Claim C7 -/

/-- Claim C7: classification is total — for every name it returns the table
entry for the extracted extension, or the `application/octet-stream` default
when no rule matches — and a file whose content type is absent is displayed
with the `Unknown` label. -/
theorem classify_total_default (filename : List Char) (f : FileItem)
    (hft : f.ftype = FType.file) (hct : strFalsy f.contentType = true) :
    getContentType filename =
      (mimeTypes.lookup (extOf filename)).getD "application/octet-stream".data ∧
    (mimeTypes.lookup (extOf filename) = none →
      getContentType filename = "application/octet-stream".data) ∧
    displayedType f = "Unknown".data := by
  refine ⟨rfl, ?_, ?_⟩
  · intro h
    unfold getContentType
    rw [h]
    rfl
  · have hnotf : ¬ f.ftype = FType.folder := by
      rw [hft]
      intro hcontra
      exact FType.noConfusion hcontra
    cases hc : f.contentType with
    | none => simp [displayedType, hc, hnotf]
    | some c =>
      have : c.isEmpty = true := by simpa [strFalsy, hc] using hct
      simp [displayedType, hc, this, hnotf]

/-- Witness for `classify_total_default` at the extension-less name `noext`
and the concrete file item `itemNoDate`. -/
theorem classify_total_default_witness :
    (itemNoDate.ftype = FType.file ∧ strFalsy itemNoDate.contentType = true) ∧
    (getContentType "noext".data =
        (mimeTypes.lookup (extOf "noext".data)).getD
          "application/octet-stream".data ∧
      (mimeTypes.lookup (extOf "noext".data) = none →
        getContentType "noext".data = "application/octet-stream".data) ∧
      displayedType itemNoDate = "Unknown".data) :=
  ⟨⟨by decide, by decide⟩,
   classify_total_default "noext".data itemNoDate (by decide) (by decide)⟩

/-! ## Claim C2 -/

/-- Claim C2, counterexample: with a lister whose first page is truncated
with a continuation token, the directory-listing operation (`loadObjects`)
does not repeat the list call — its result misses the second page's entry
`c.txt`, which the spec's pagination merge does contain. -/
theorem pagination_counterexample :
    (twoPageLister none none).isTruncated = true ∧
    "c.txt".data ∈ (specPaginatedMerge twoPageLister none 2 none).1.map
      (fun o => o.key) ∧
    "c.txt".data ∉ ((loadObjectsModel twoPageLister "/".data).1.map
      (fun o => o.key)) := by
  decide

/-- Claim C2, amended: the directory-listing operation issues exactly one
list call, with no continuation token, and returns that single page's
objects and common prefixes unchanged; it never consults continuation
pages — its result is unchanged under arbitrary modification of every page
the lister would serve for a non-null token, even when the first page is
truncated. -/
theorem loadObjects_single_page
    (L L' : Option (List Char) → Option (List Char) → ListResp)
    (currentPath : List Char) (h : ∀ q, L q none = L' q none) :
    loadObjectsModel L currentPath = loadObjectsModel L' currentPath ∧
    loadObjectsModel L currentPath =
      ((L (orNull (normalizeListPfx (some (uiPathToPfx currentPath)))) none).objects,
       (L (orNull (normalizeListPfx (some (uiPathToPfx currentPath)))) none).commonPrefixes) := by
  constructor
  · unfold loadObjectsModel listObjectsModel
    rw [show orNull none = none from rfl, h]
  · rfl

/-- Witness for `loadObjects_single_page`: the two concrete listers agree on
token-null pages and differ on the continuation page, yet `loadObjects`
cannot tell them apart. -/
theorem loadObjects_single_page_witness :
    loadObjectsModel twoPageLister "/".data =
      loadObjectsModel twoPageListerAlt "/".data ∧
    loadObjectsModel twoPageLister "/".data =
      ((twoPageLister (orNull (normalizeListPfx (some (uiPathToPfx "/".data)))) none).objects,
       (twoPageLister (orNull (normalizeListPfx (some (uiPathToPfx "/".data)))) none).commonPrefixes) :=
  loadObjects_single_page twoPageLister twoPageListerAlt "/".data (fun _ => rfl)


/-! ## Claim C10 -/

theorem fromRust_toRust_connection (c : ConnectionConfig) :
    fromRustConnection (toRustConnection c) = c := rfl

theorem toRust_fromRust_connection (c : RustConnectionConfig) :
    toRustConnection (fromRustConnection c) = c := rfl

theorem fromRust_toRust_general (g : GeneralSettings) :
    fromRustGeneral (toRustGeneral g) = g := rfl

theorem toRust_fromRust_general (g : RustGeneralSettings) :
    toRustGeneral (fromRustGeneral g) = g := rfl

theorem fromRust_toRust_appearance (a : AppearanceSettings) :
    fromRustAppearance (toRustAppearance a) = a := rfl

theorem toRust_fromRust_appearance (a : RustAppearanceSettings) :
    toRustAppearance (fromRustAppearance a) = a := rfl

theorem fromRust_toRust_layout (l : LayoutSettings) :
    fromRustLayout (toRustLayout l) = l := rfl

theorem toRust_fromRust_layout (l : RustLayoutSettings) :
    toRustLayout (fromRustLayout l) = l := rfl

theorem fromRust_toRust_permissions (p : PermissionsSettings) :
    fromRustPermissions (toRustPermissions p) = p := rfl

theorem toRust_fromRust_permissions (p : RustPermissionsSettings) :
    toRustPermissions (fromRustPermissions p) = p := rfl

/-- Claim C10: converting settings to the Rust (snake_case) representation
and back to the frontend (camelCase) representation is the identity, in both
directions and for every field, including each element of the connections
list. -/
theorem settings_conversion_roundtrip (s : AppSettings) (r : RustAppSettings) :
    fromRustSettings (toRustSettings s) = s ∧
    toRustSettings (fromRustSettings r) = r := by
  constructor
  · cases s with
    | mk v g c a l p =>
      simp [fromRustSettings, toRustSettings, List.map_map, Function.comp_def,
        fromRust_toRust_connection, fromRust_toRust_general,
        fromRust_toRust_appearance, fromRust_toRust_layout,
        fromRust_toRust_permissions]
  · cases r with
    | mk v g c a l p =>
      simp [fromRustSettings, toRustSettings, List.map_map, Function.comp_def,
        toRust_fromRust_connection, toRust_fromRust_general,
        toRust_fromRust_appearance, toRust_fromRust_layout,
        toRust_fromRust_permissions]
